import Mathlib

/-!
Verification of the perceptual-hash pipeline of `image_tools`
(`src/cgimage.rs`).

The hashing-relevant code of the repository is embedded shallowly:

* pixel buffers (the result of `raw_data()`) are `List ℕ` of byte values;
* the `f32` arithmetic in `ahash` is modelled with exact rationals `ℚ`
  (the separate `F32` development below justifies this: every intermediate
  value of the computation is exactly representable in binary32, so any
  faithful rounding is the identity on them);
* a Rust `panic!` / `unimplemented!()` / `unwrap()` failure / overflowing
  shift is modelled by `none` (at buffer level) or `Outcome.fatal` (at
  image level), while ordinary `Result::Err` values are `Outcome.err`;
* the CoreGraphics rendering backend (bitmap contexts, `CGContextDrawImage`,
  `CGBitmapContextCreateImage`) is external FFI code; it is modelled as an
  opaque `RenderBackend` parameter.
-/

set_option autoImplicit false

namespace ImageTools

/-- The error type of `src/errs.rs` (`Io` carries an `io::Error`; we keep
only a string description of it, which is all the code ever constructs). -/
inductive Error where
  | BitmapConversionFailed
  | CannotFinalizeImageDestination
  | CreateFailed (msg : String)
  | FailedToLoadAsJPEG
  | FailedToLoadAsPNG
  | Io (msg : String)
deriving DecidableEq, Repr

/-- Outcome of a Rust computation that may return `Ok`, return `Err`, or
abort the process (`panic!` / `unimplemented!`). -/
inductive Outcome (α : Type) where
  | ok (a : α)
  | err (e : Error)
  | fatal
deriving DecidableEq, Repr

/-- Sequencing of outcomes: `Err` and an abort both short-circuit
(`try!` for `err`; an abort never returns at all). -/
def Outcome.bind {α β : Type} : Outcome α → (α → Outcome β) → Outcome β
  | .ok a, f => f a
  | .err e, _ => .err e
  | .fatal, _ => .fatal

/-- Model of a decoded `CGImage`: its dimensions, the number of components
of its color space (`CGColorSpaceGetNumberOfComponents`), and the bytes
returned by `raw_data()`. -/
structure CGImageModel where
  width : ℕ
  height : ℕ
  numComponents : ℕ
  data : List ℕ
deriving DecidableEq, Repr

/-- Model of the CoreGraphics rendering backend: given the source image and
the bitmap-context parameters (`width`, `height`, `bits_per_component`,
`bytes_per_row`, number of components of the context's color space), it
yields the image produced by `CGBitmapContextCreateImage` after
`draw_into_context`, or `none` when that call returns null. -/
structure RenderBackend where
  render : CGImageModel → ℕ → ℕ → ℕ → ℕ → ℕ → Option CGImageModel

/-- `CGImage::convert_to_gray` (`cgimage.rs:124`): draws `img` into a fresh
bitmap context of the same dimensions over the device-gray color space
(1 component, 8 bits per component, `bytes_per_row = width`), then
`image_from_bitmap_context` wraps the null check as
`Error::BitmapConversionFailed`. -/
def convert_to_gray (B : RenderBackend) (img : CGImageModel) : Outcome CGImageModel :=
  match B.render img img.width img.height 8 img.width 1 with
  | some i => .ok i
  | none => .err .BitmapConversionFailed

/-- `CGImage::shrink` (`cgimage.rs:137`): refuses any image whose color
space does not have exactly one component via `unimplemented!()` (a fatal
abort), then draws into a `width × height` context over the image's own
color space and wraps the null check as `BitmapConversionFailed`. -/
def shrink (B : RenderBackend) (img : CGImageModel) (width height : ℕ) :
    Outcome CGImageModel :=
  if img.numComponents ≠ 1 then .fatal
  else
    match B.render img width height 8 width img.numComponents with
    | some i => .ok i
    | none => .err .BitmapConversionFailed

/-- One iteration of the `ahash` bit loop (`cgimage.rs:177`):
`if *val as f32 > avg { hsh = hsh | 1 << idx }`.  The pair `p` is
`(idx, val)` from `enumerate()`.  A shift amount of 64 or more would be an
arithmetic-overflow panic on `u64`, modelled by `none`; the `% 2 ^ 64`
keeps the accumulator a `u64`. -/
def ahashStep (avg : ℚ) (acc : Option ℕ) (p : ℕ × ℕ) : Option ℕ :=
  match acc with
  | none => none
  | some hsh =>
    if (p.2 : ℚ) > avg then
      if p.1 < 64 then some ((hsh ||| (1 <<< p.1)) % 2 ^ 64) else none
    else some hsh

/-- The mean computed at `cgimage.rs:175`:
`data.iter().map(|d| *d as f32).sum::<f32>() / (data.len() as f32)`,
with the `f32` arithmetic rendered exactly over `ℚ` (see the `F32` section
for the proof that no rounding occurs on length-64 byte buffers). -/
def ahashMean (data : List ℕ) : ℚ :=
  (data.map (Nat.cast : ℕ → ℚ)).sum / (data.length : ℚ)

/-- The buffer-level part of `CGImage::ahash` (`cgimage.rs:170`–`182`):
the length-64 integrity check (`panic!` on failure, modelled by `none`),
the mean, and the bit loop over `data.iter().enumerate()`. -/
def ahashExtract (data : List ℕ) : Option ℕ :=
  if 64 ≠ data.length then none
  else data.enum.foldl (ahashStep (ahashMean data)) (some 0)

/-- One iteration of the `dhash` double loop (`cgimage.rs:196`–`204`) at
row/column pair `p`, carrying `(hsh, idx)`.  The two `get(..).unwrap()`
calls panic when out of bounds (`none`); the shift panics at 64 or more;
`idx` is a `u16`, hence the `% 2 ^ 16` on its increment. -/
def dhashStep (data : List ℕ) (acc : Option (ℕ × ℕ)) (p : ℕ × ℕ) : Option (ℕ × ℕ) :=
  match acc with
  | none => none
  | some (hsh, idx) =>
    match data[p.1 * 9 + p.2]?, data[p.1 * 9 + p.2 + 1]? with
    | some v1, some v2 =>
      if v1 > v2 then
        if idx < 64 then some ((hsh ||| (1 <<< idx)) % 2 ^ 64, (idx + 1) % 2 ^ 16)
        else none
      else some (hsh, (idx + 1) % 2 ^ 16)
    | _, _ => none

/-- The comparison performed by the `dhash` loop body at row/column pair
`p` (`cgimage.rs:197`–`200`), as a Boolean on in-range indices. -/
def cmpAt (data : List ℕ) (p : ℕ × ℕ) : Bool :=
  decide (data.getD (p.1 * 9 + p.2) 0 > data.getD (p.1 * 9 + p.2 + 1) 0)

/-- The row-major traversal order of `dhash`'s nested loops:
`for row in 0..8 { for col in 0..8 { ... } }`. -/
def rcList : List (ℕ × ℕ) :=
  (List.range 8).flatMap fun row => (List.range 8).map fun col => (row, col)

/-- The buffer-level part of `CGImage::dhash` (`cgimage.rs:190`–`206`):
the length-72 integrity check (`panic!` on failure) and the nested
comparison loops, returning the final `hsh`. -/
def dhashExtract (data : List ℕ) : Option ℕ :=
  if 72 ≠ data.length then none
  else
    match rcList.foldl (dhashStep data) (some (0, 0)) with
    | some (hsh, _) => some hsh
    | none => none

/-- Lifts a buffer-level extractor result into an `Outcome`: the extractor
itself never returns `Err`, its only failure mode is a panic. -/
def extractOutcome (o : Option ℕ) : Outcome ℕ :=
  match o with
  | some fp => .ok fp
  | none => .fatal

/-- `CGImage::ahash` (`cgimage.rs:165`):
`try!(self.convert_to_gray().and_then(|i| i.shrink(8, 8)).map(|i| i.raw_data()))`
followed by the buffer-level extraction. -/
def ahash (B : RenderBackend) (img : CGImageModel) : Outcome ℕ :=
  Outcome.bind (convert_to_gray B img) fun g =>
    Outcome.bind (shrink B g 8 8) fun s =>
      extractOutcome (ahashExtract s.data)

/-- `CGImage::dhash` (`cgimage.rs:185`):
`try!(self.convert_to_gray().and_then(|i| i.shrink(9, 8)).map(|i| i.raw_data()))`
followed by the buffer-level extraction. -/
def dhash (B : RenderBackend) (img : CGImageModel) : Outcome ℕ :=
  Outcome.bind (convert_to_gray B img) fun g =>
    Outcome.bind (shrink B g 9 8) fun s =>
      extractOutcome (dhashExtract s.data)

/-! ### IEEE-754 binary32 model for the `ahash` mean

`cgimage.rs:175` computes the mean in `f32`.  We model an `f32` value as
the rational it denotes and a rounding step as an arbitrary function that
fixes every exactly representable rational (every IEEE rounding mode
does).  The theorems below show all intermediate values of the mean
computation are representable, so the `f32` arithmetic is exact. -/

/-- A rational number exactly representable as an IEEE-754 binary32 value:
`m * 2 ^ e` with `|m| < 2 ^ 24`.  Exponent-range limits are irrelevant at
the magnitudes arising here and are not modelled. -/
def F32Representable (q : ℚ) : Prop :=
  ∃ (m : ℤ) (e : ℤ), m.natAbs < 2 ^ 24 ∧ q = (m : ℚ) * (2 : ℚ) ^ e

/-- A rounding function is faithful when it fixes every exactly
representable value. -/
def RoundingFaithful (rnd : ℚ → ℚ) : Prop :=
  ∀ q, F32Representable q → rnd q = q

/-- The `f32` sum of `cgimage.rs:175`
(`data.iter().map(|d| *d as f32).sum::<f32>()`), with an explicit rounding
after each addition; the `u8 → f32` conversions are always exact and need
no rounding. -/
def sumF32 (rnd : ℚ → ℚ) (data : List ℕ) : ℚ :=
  data.foldl (fun (s : ℚ) (d : ℕ) => rnd (s + (d : ℚ))) 0

/-- The `f32` mean of `cgimage.rs:175`, rounding the final division. -/
def meanF32 (rnd : ℚ → ℚ) (data : List ℕ) : ℚ :=
  rnd (sumF32 rnd data / (data.length : ℚ))

/-! ### Spec-side pipeline (per §4.4 of the specification) and fixtures -/

/-- `to_grayscale` of spec §4.1: the grayscale-normalisation stage, which
is `CGImage::convert_to_gray`. -/
def to_grayscale : RenderBackend → CGImageModel → Outcome CGImageModel :=
  convert_to_gray

/-- `resize` of spec §4.2: the resampling stage, which is
`CGImage::shrink`. -/
def resize : RenderBackend → CGImageModel → ℕ → ℕ → Outcome CGImageModel :=
  shrink

/-- `ahash_bits` of spec §4.4: the average-hash bit-extraction stage
applied to a resized image's pixel buffer. -/
def ahash_bits (img : CGImageModel) : Outcome ℕ :=
  extractOutcome (ahashExtract img.data)

/-- `dhash_bits` of spec §4.4: the difference-hash bit-extraction stage
applied to a resized image's pixel buffer. -/
def dhash_bits (img : CGImageModel) : Outcome ℕ :=
  extractOutcome (dhashExtract img.data)

/-- Modelled from the spec (§4.4):
`average_hash(image) = ahash_bits(resize(to_grayscale(image), 8, 8))`,
with the stages' `Result`s sequenced in application order. -/
def average_hash_spec (B : RenderBackend) (img : CGImageModel) : Outcome ℕ :=
  Outcome.bind (Outcome.bind (to_grayscale B img) fun g => resize B g 8 8) ahash_bits

/-- Modelled from the spec (§4.4):
`difference_hash(image) = dhash_bits(resize(to_grayscale(image), 9, 8))`. -/
def difference_hash_spec (B : RenderBackend) (img : CGImageModel) : Outcome ℕ :=
  Outcome.bind (Outcome.bind (to_grayscale B img) fun g => resize B g 9 8) dhash_bits

/-- A backend whose every render yields an 8×8 single-component image with
an empty pixel buffer; exercises the integrity checks. -/
def emptyBackend : RenderBackend :=
  ⟨fun _ _ _ _ _ _ => some ⟨8, 8, 1, []⟩⟩

/-- A 2×2 three-component (RGB-like) source image. -/
def rgbImage : CGImageModel :=
  ⟨2, 2, 3, [0, 0, 0, 0, 0, 0, 0, 0, 0, 0, 0, 0]⟩

/-- A 1×1 single-component source image. -/
def grayImage : CGImageModel :=
  ⟨1, 1, 1, [0]⟩

/-- The 8×8 checkerboard buffer alternating 0 and 255, in row-major order;
cell `(r, c)` holds 255 exactly when `r + c` is odd. -/
def checkerBuf : List ℕ :=
  (List.range 64).map fun i => if (i / 8 + i % 8) % 2 = 1 then 255 else 0

/-! ### Characterisation of the `ahash` bit loop -/

theorem ahash_fold_char (avg : ℚ) (ps : List (ℕ × ℕ)) :
    ∀ h0 : ℕ, (∀ p ∈ ps, p.1 < 64) → h0 < 2 ^ 64 →
    ∃ h, ps.foldl (ahashStep avg) (some h0) = some h ∧ h < 2 ^ 64 ∧
      ∀ j, (h.testBit j = true ↔
        (h0.testBit j = true ∨ ∃ p ∈ ps, p.1 = j ∧ (p.2 : ℚ) > avg)) := by
  induction ps with
  | nil =>
    intro h0 _ hlt
    exact ⟨h0, rfl, hlt, fun j => by simp⟩
  | cons p ps ih =>
    intro h0 hb hlt
    have hp1 : p.1 < 64 := hb p (List.mem_cons_self p ps)
    have hrest : ∀ q ∈ ps, q.1 < 64 := fun q hq => hb q (List.mem_cons_of_mem p hq)
    by_cases hc : (p.2 : ℚ) > avg
    · have hpow : (2 : ℕ) ^ p.1 < 2 ^ 64 := Nat.pow_lt_pow_right (by norm_num) hp1
      have hor : h0 ||| 2 ^ p.1 < 2 ^ 64 := Nat.or_lt_two_pow hlt hpow
      have hstep : ahashStep avg (some h0) p = some (h0 ||| 2 ^ p.1) := by
        simp only [ahashStep]
        rw [if_pos hc, if_pos hp1, Nat.shiftLeft_eq, one_mul, Nat.mod_eq_of_lt hor]
      obtain ⟨h, hfold, hhlt, hbits⟩ := ih (h0 ||| 2 ^ p.1) hrest hor
      refine ⟨h, by rw [List.foldl_cons, hstep]; exact hfold, hhlt, fun j => ?_⟩
      rw [hbits j]
      simp only [Nat.testBit_lor, Bool.or_eq_true, Nat.testBit_two_pow,
        decide_eq_true_eq, List.mem_cons]
      constructor
      · rintro (⟨h1 | h1⟩ | ⟨q, hq, hq1, hq2⟩)
        · exact Or.inl h1
        · exact Or.inr ⟨p, Or.inl rfl, h1, hc⟩
        · exact Or.inr ⟨q, Or.inr hq, hq1, hq2⟩
      · rintro (h1 | ⟨q, hq | hq, hq1, hq2⟩)
        · exact Or.inl (Or.inl h1)
        · exact Or.inl (Or.inr (hq ▸ hq1))
        · exact Or.inr ⟨q, hq, hq1, hq2⟩
    · have hstep : ahashStep avg (some h0) p = some h0 := by
        simp [ahashStep, hc]
      obtain ⟨h, hfold, hhlt, hbits⟩ := ih h0 hrest hlt
      refine ⟨h, by rw [List.foldl_cons, hstep]; exact hfold, hhlt, fun j => ?_⟩
      rw [hbits j]
      simp only [List.mem_cons]
      constructor
      · rintro (h1 | ⟨q, hq, hq1, hq2⟩)
        · exact Or.inl h1
        · exact Or.inr ⟨q, Or.inr hq, hq1, hq2⟩
      · rintro (h1 | ⟨q, hq | hq, hq1, hq2⟩)
        · exact Or.inl h1
        · exact absurd (hq ▸ hq2) hc
        · exact Or.inr ⟨q, hq, hq1, hq2⟩

/-- The bits of a successful `ahashExtract`: bit `i` (for `i < 64`) is set
exactly when sample `i` exceeds the mean. -/
theorem ahashExtract_char (data : List ℕ) (hlen : data.length = 64) :
    ∃ fp, ahashExtract data = some fp ∧ fp < 2 ^ 64 ∧
      ∀ i, i < 64 →
        (fp.testBit i = true ↔ (data.getD i 0 : ℚ) > ahashMean data) := by
  have hbound : ∀ p ∈ data.enum, p.1 < 64 := by
    rw [List.forall_mem_enum]
    intro i hi
    omega
  obtain ⟨h, hfold, hhlt, hbits⟩ :=
    ahash_fold_char (ahashMean data) data.enum 0 hbound (by norm_num)
  refine ⟨h, ?_, hhlt, fun i hi => ?_⟩
  · rw [ahashExtract, if_neg (by omega)]
    exact hfold
  · rw [hbits i]
    simp only [Nat.zero_testBit, Bool.false_eq_true, false_or]
    rw [List.exists_mem_enum]
    constructor
    · rintro ⟨k, hk, hki, hgt⟩
      have hki2 : k = i := hki
      have hgt2 : (data[k] : ℚ) > ahashMean data := hgt
      subst hki2
      rwa [List.getD_eq_getElem data 0 hk]
    · intro hgt
      rw [List.getD_eq_getElem data 0 (by omega)] at hgt
      exact ⟨i, by omega, rfl, hgt⟩

/-! ### Characterisation of the `dhash` double loop -/

theorem dhash_fold_char (data : List ℕ) (ps : List (ℕ × ℕ)) :
    ∀ h0 idx0 : ℕ, h0 < 2 ^ 64 → idx0 + ps.length ≤ 64 →
    (∀ p ∈ ps, p.1 * 9 + p.2 + 1 < data.length) →
    ∃ h, ps.foldl (dhashStep data) (some (h0, idx0)) = some (h, idx0 + ps.length) ∧
      h < 2 ^ 64 ∧
      ∀ j, (h.testBit j = true ↔
        (h0.testBit j = true ∨
          (idx0 ≤ j ∧ j < idx0 + ps.length ∧
            cmpAt data (ps.getD (j - idx0) (0, 0)) = true))) := by
  induction ps with
  | nil =>
    intro h0 idx0 hlt _ _
    refine ⟨h0, by simp, hlt, fun j => ?_⟩
    simp only [List.length_nil, Nat.add_zero]
    constructor
    · exact Or.inl
    · rintro (h1 | ⟨h1, h2, _⟩)
      · exact h1
      · omega
  | cons p ps ih =>
    intro h0 idx0 hlt hidx hbnd
    simp only [List.length_cons] at hidx
    have hmem : p.1 * 9 + p.2 + 1 < data.length := hbnd p (List.mem_cons_self p ps)
    have hrest : ∀ q ∈ ps, q.1 * 9 + q.2 + 1 < data.length :=
      fun q hq => hbnd q (List.mem_cons_of_mem p hq)
    have hidx0 : idx0 < 64 := by omega
    obtain ⟨v1, hv1⟩ : ∃ v, data[p.1 * 9 + p.2]? = some v :=
      ⟨_, List.getElem?_eq_getElem (by omega)⟩
    obtain ⟨v2, hv2⟩ : ∃ v, data[p.1 * 9 + p.2 + 1]? = some v :=
      ⟨_, List.getElem?_eq_getElem (by omega)⟩
    have hg1 : data.getD (p.1 * 9 + p.2) 0 = v1 := by
      rw [List.getD_eq_getElem?_getD, hv1]; rfl
    have hg2 : data.getD (p.1 * 9 + p.2 + 1) 0 = v2 := by
      rw [List.getD_eq_getElem?_getD, hv2]; rfl
    have hcmpAt : cmpAt data p = decide (v1 > v2) := by
      simp only [cmpAt]; rw [hg1, hg2]
    have hmod16 : idx0 + 1 < 2 ^ 16 := by
      have : (2 : ℕ) ^ 16 = 65536 := by norm_num
      omega
    obtain ⟨hsh1, hstep, hsh1lt, hkey⟩ :
        ∃ hsh1, dhashStep data (some (h0, idx0)) p = some (hsh1, idx0 + 1) ∧
          hsh1 < 2 ^ 64 ∧
          ∀ j, (Nat.testBit hsh1 j = true ↔
            (Nat.testBit h0 j = true ∨ (idx0 = j ∧ cmpAt data p = true))) := by
      by_cases hv : v1 > v2
      · have hpow : (2 : ℕ) ^ idx0 < 2 ^ 64 := Nat.pow_lt_pow_right (by norm_num) hidx0
        have hor : h0 ||| 2 ^ idx0 < 2 ^ 64 := Nat.or_lt_two_pow hlt hpow
        refine ⟨h0 ||| 2 ^ idx0, ?_, hor, fun j => ?_⟩
        · simp only [dhashStep, hv1, hv2]
          rw [if_pos hv, if_pos hidx0, Nat.shiftLeft_eq, one_mul,
            Nat.mod_eq_of_lt hor, Nat.mod_eq_of_lt hmod16]
        · rw [Nat.testBit_lor, Nat.testBit_two_pow]
          rw [hcmpAt]
          simp only [Bool.or_eq_true, decide_eq_true_eq]
          constructor
          · rintro (h1 | h1)
            · exact Or.inl h1
            · exact Or.inr ⟨h1, hv⟩
          · rintro (h1 | ⟨h1, _⟩)
            · exact Or.inl h1
            · exact Or.inr h1
      · refine ⟨h0, ?_, hlt, fun j => ?_⟩
        · simp only [dhashStep, hv1, hv2]
          rw [if_neg hv, Nat.mod_eq_of_lt hmod16]
        · rw [hcmpAt]
          simp only [decide_eq_true_eq]
          constructor
          · exact Or.inl
          · rintro (h1 | ⟨_, h1⟩)
            · exact h1
            · exact absurd h1 hv
    obtain ⟨h, hfold, hhlt, hbits⟩ := ih hsh1 (idx0 + 1) hsh1lt (by omega) hrest
    refine ⟨h, ?_, hhlt, fun j => ?_⟩
    · rw [List.foldl_cons, hstep, hfold]
      simp only [List.length_cons, Option.some.injEq, Prod.mk.injEq]
      constructor
      · trivial
      · omega
    · rw [hbits j, hkey j]
      simp only [List.length_cons]
      by_cases hj : idx0 = j
      · subst hj
        have h1 : ¬(idx0 + 1 ≤ idx0) := by omega
        have h2 : idx0 < idx0 + (ps.length + 1) := by omega
        simp only [Nat.sub_self, List.getD_cons_zero]
        simp [h1, h2]
      · by_cases hj2 : idx0 ≤ j
        · have hsub : j - idx0 = (j - (idx0 + 1)) + 1 := by omega
          rw [hsub, List.getD_cons_succ]
          have hr : (idx0 + 1 ≤ j ∧ j < idx0 + 1 + ps.length) ↔
              (idx0 ≤ j ∧ j < idx0 + (ps.length + 1)) := by omega
          simp only [hj, false_and, or_false]
          tauto
        · have hn1 : ¬(idx0 ≤ j) := hj2
          have hn2 : ¬(idx0 + 1 ≤ j) := by omega
          simp [hj, hn1, hn2]

/-- The bits of a successful `dhashExtract`: bit `j` (for `j < 64`) is the
horizontal comparison at the `j`-th row/column pair visited by the loop. -/
theorem dhashExtract_char (data : List ℕ) (hlen : data.length = 72) :
    ∃ fp, dhashExtract data = some fp ∧ fp < 2 ^ 64 ∧
      ∀ j, j < 64 → (fp.testBit j = true ↔ cmpAt data (rcList.getD j (0, 0)) = true) := by
  have hbnd : ∀ p ∈ rcList, p.1 * 9 + p.2 + 1 < data.length := by
    rw [hlen]; decide
  obtain ⟨h, hfold, hhlt, hbits⟩ :=
    dhash_fold_char data rcList 0 0 (by norm_num) (by decide) hbnd
  refine ⟨h, ?_, hhlt, fun j hj => ?_⟩
  · rw [dhashExtract, if_neg (by omega), hfold]
  · rw [hbits j]
    have h64 : (0 : ℕ) + rcList.length = 64 := by decide
    simp only [Nat.zero_testBit, Bool.false_eq_true, false_or, Nat.sub_zero, h64]
    simp [hj]

/-! ### Numeric helpers -/

theorem testBit_high {h : ℕ} (hlt : h < 2 ^ 64) {j : ℕ} (hj : 64 ≤ j) :
    h.testBit j = false :=
  Nat.testBit_eq_false_of_lt
    (lt_of_lt_of_le hlt (Nat.pow_le_pow_right (by norm_num) hj))

/-- The exact mean of a 64-sample buffer, as `sum / 64` over `ℚ`. -/
theorem ahashMean_eq (data : List ℕ) (hlen : data.length = 64) :
    ahashMean data = (data.sum : ℚ) / 64 := by
  rw [ahashMean, ← Nat.cast_list_sum, hlen]
  norm_num

/-- Comparing a sample against the rational mean is the integer comparison
`64 * v > sum`. -/
theorem gt_ahashMean_iff (data : List ℕ) (hlen : data.length = 64) (v : ℕ) :
    ((v : ℚ) > ahashMean data ↔ 64 * v > data.sum) := by
  rw [ahashMean_eq data hlen, gt_iff_lt,
    div_lt_iff₀ (by norm_num : (0 : ℚ) < 64)]
  rw [show (v : ℚ) * (64 : ℚ) = ((v * 64 : ℕ) : ℚ) from by push_cast; ring,
    Nat.cast_lt]
  omega

theorem sum_le_of_bounded (data : List ℕ) (hb : ∀ v ∈ data, v ≤ 255) :
    data.sum ≤ 255 * data.length := by
  induction data with
  | nil => simp
  | cons d ds ih =>
    have htail := ih fun v hv => hb v (List.mem_cons_of_mem d hv)
    have hd := hb d (List.mem_cons_self d ds)
    simp only [List.sum_cons, List.length_cons]
    omega

/-! ### Exactness of the `f32` arithmetic in `ahash` -/

/-- Every natural below `2 ^ 24` is exactly representable in binary32. -/
theorem f32_nat_representable (n : ℕ) (h : n < 2 ^ 24) :
    F32Representable (n : ℚ) :=
  ⟨(n : ℤ), 0, by simpa using h, by simp⟩

/-- `n / 64` is exactly representable in binary32 for `n < 2 ^ 24`. -/
theorem f32_div64_representable (n : ℕ) (h : n < 2 ^ 24) :
    F32Representable ((n : ℚ) / 64) := by
  refine ⟨(n : ℤ), -6, by simpa using h, ?_⟩
  rw [zpow_neg, div_eq_mul_inv]
  norm_num

/-- The rounded running sum of the `f32` summation stays exact as long as
the true sum stays below `2 ^ 24`. -/
theorem sumF32_exact (rnd : ℚ → ℚ) (hrnd : RoundingFaithful rnd) (data : List ℕ) :
    ∀ acc : ℕ, acc + data.sum < 2 ^ 24 →
      data.foldl (fun (s : ℚ) (d : ℕ) => rnd (s + (d : ℚ))) (acc : ℚ) =
        ((acc + data.sum : ℕ) : ℚ) := by
  induction data with
  | nil =>
    intro acc _
    simp
  | cons d ds ih =>
    intro acc h
    simp only [List.sum_cons] at h
    rw [List.foldl_cons,
      show ((acc : ℚ) + (d : ℚ)) = ((acc + d : ℕ) : ℚ) from by push_cast; ring,
      hrnd _ (f32_nat_representable (acc + d) (by omega)),
      ih (acc + d) (by omega)]
    rw [show acc + d + ds.sum = acc + (d :: ds).sum from by simp [List.sum_cons]; omega]

/-- The complete `f32` summation is exact on byte buffers of length 64. -/
theorem sumF32_eq (rnd : ℚ → ℚ) (hrnd : RoundingFaithful rnd) (data : List ℕ)
    (h : data.sum < 2 ^ 24) : sumF32 rnd data = (data.sum : ℚ) := by
  have h0 := sumF32_exact rnd hrnd data 0 (by omega)
  simp only [Nat.cast_zero, Nat.zero_add] at h0
  exact h0

/-- The complete `f32` mean is exact on 64-sample byte buffers, and agrees
with the exact rational mean used by `ahashExtract`. -/
theorem meanF32_eq (rnd : ℚ → ℚ) (hrnd : RoundingFaithful rnd) (data : List ℕ)
    (hlen : data.length = 64) (h : data.sum < 2 ^ 24) :
    meanF32 rnd data = ahashMean data := by
  rw [meanF32, sumF32_eq rnd hrnd data h, hlen, ahashMean_eq data hlen]
  rw [show ((64 : ℕ) : ℚ) = (64 : ℚ) from by norm_num]
  exact hrnd _ (f32_div64_representable data.sum h)

/-! ### Further structural helpers -/

theorem Outcome.bind_assoc {α β γ : Type} (x : Outcome α) (f : α → Outcome β)
    (g : β → Outcome γ) :
    Outcome.bind (Outcome.bind x f) g = Outcome.bind x fun a => Outcome.bind (f a) g := by
  cases x <;> rfl

/-- The `j`-th row/column pair visited by `dhash`'s loops, at `j = r*8+c`. -/
theorem rcList_getD : ∀ r, r < 8 → ∀ c, c < 8 →
    rcList.getD (r * 8 + c) (0, 0) = (r, c) := by decide

/-- `cmpAt` on a uniform buffer is always `false` on the visited pairs. -/
theorem cmpAt_replicate (v : ℕ) (j : ℕ) (hj : j < 64) :
    cmpAt (List.replicate 72 v) (rcList.getD j (0, 0)) = false := by
  have hget : ∀ n, n < 72 → (List.replicate 72 v).getD n 0 = v := by
    intro n hn
    have h2 : n < (List.replicate 72 v).length := by simpa using hn
    rw [List.getD_eq_getElem _ _ h2]
    apply List.getElem_replicate
  have hpair : ∀ j2, j2 < 64 → rcList.getD j2 (0, 0) = (j2 / 8, j2 % 8) := by decide
  rw [hpair j hj]
  simp only [cmpAt]
  have h8 : j / 8 < 8 := by omega
  rw [hget ((j / 8) * 9 + j % 8) (by omega), hget ((j / 8) * 9 + j % 8 + 1) (by omega)]
  simp

/-! ### Claims -/

/-- C1: for every grayscale buffer of exactly 64 samples, the `ahash`
bit-extraction returns a 64-bit fingerprint whose bit `i` (row-major,
`0 ≤ i < 64`) is set exactly when sample `i` strictly exceeds the mean,
the sum of all 64 samples divided by 64. -/
theorem c1_ahash_bit_iff_above_mean (data : List ℕ) (hlen : data.length = 64) :
    ∃ fp, ahashExtract data = some fp ∧ fp < 2 ^ 64 ∧
      ∀ i, i < 64 →
        (fp.testBit i = true ↔ (data.getD i 0 : ℚ) > (data.sum : ℚ) / 64) := by
  obtain ⟨fp, hfp, hlt, hbits⟩ := ahashExtract_char data hlen
  exact ⟨fp, hfp, hlt, fun i hi => by rw [hbits i hi, ahashMean_eq data hlen]⟩

theorem c1_witness :
    ∃ fp, ahashExtract (List.replicate 64 3) = some fp ∧ fp < 2 ^ 64 ∧
      ∀ i, i < 64 →
        (fp.testBit i = true ↔
          (Nat.cast ((List.replicate 64 3).getD i 0) : ℚ) >
            (Nat.cast (List.replicate 64 3).sum : ℚ) / 64) :=
  c1_ahash_bit_iff_above_mean (List.replicate 64 3) (by simp)

/-- C2: for every grayscale buffer of exactly 72 samples (9×8), the
`dhash` bit-extraction returns a 64-bit fingerprint whose bit `r*8 + c`
(for `r < 8`, `c < 8`) is set exactly when `sample[r*9 + c]` is strictly
greater than `sample[r*9 + c + 1]`. -/
theorem c2_dhash_bit_iff_gradient (data : List ℕ) (hlen : data.length = 72) :
    ∃ fp, dhashExtract data = some fp ∧ fp < 2 ^ 64 ∧
      ∀ r c, r < 8 → c < 8 →
        (fp.testBit (r * 8 + c) = true ↔
          data.getD (r * 9 + c) 0 > data.getD (r * 9 + c + 1) 0) := by
  obtain ⟨fp, hfp, hlt, hbits⟩ := dhashExtract_char data hlen
  refine ⟨fp, hfp, hlt, fun r c hr hc => ?_⟩
  rw [hbits (r * 8 + c) (by omega), rcList_getD r hr c hc]
  simp [cmpAt]

theorem c2_witness :
    ∃ fp, dhashExtract (List.replicate 72 5) = some fp ∧ fp < 2 ^ 64 ∧
      ∀ r c, r < 8 → c < 8 →
        (fp.testBit (r * 8 + c) = true ↔
          (List.replicate 72 5).getD (r * 9 + c) 0 >
            (List.replicate 72 5).getD (r * 9 + c + 1) 0) :=
  c2_dhash_bit_iff_gradient (List.replicate 72 5) (by simp)

/-- C5: the public hash operations equal the composition of the three
pipeline stages of the spec: grayscale conversion, then resize to 8×8
(resp. 9×8), then bit extraction. -/
theorem c5_pipeline_composition (B : RenderBackend) (img : CGImageModel) :
    ahash B img = average_hash_spec B img ∧
    dhash B img = difference_hash_spec B img := by
  constructor
  · simp only [ahash, average_hash_spec, to_grayscale, resize, Outcome.bind_assoc]
    rfl
  · simp only [dhash, difference_hash_spec, to_grayscale, resize, Outcome.bind_assoc]
    rfl

/-- C6: both hash extractors are deterministic pure functions of the pixel
bytes: byte-for-byte identical buffers yield identical fingerprints. -/
theorem c6_deterministic (d1 d2 : List ℕ) (h : d1 = d2) :
    ahashExtract d1 = ahashExtract d2 ∧ dhashExtract d1 = dhashExtract d2 := by
  subst h
  exact ⟨rfl, rfl⟩

theorem c6_witness :
    ahashExtract (List.replicate 64 7) = ahashExtract (List.replicate 64 7) ∧
    dhashExtract (List.replicate 72 7) = dhashExtract (List.replicate 72 7) :=
  ⟨(c6_deterministic (List.replicate 64 7) (List.replicate 64 7) rfl).1,
    (c6_deterministic (List.replicate 72 7) (List.replicate 72 7) rfl).2⟩

/-- C3: neither extractor ever produces a fingerprint from a mis-sized
buffer; at buffer level a wrong length yields the panic (`none`), and at
image level the whole hash computation ends in a fatal abort
(`Outcome.fatal`), which is distinct from every ordinary error result. -/
theorem c3_mis_sized_aborts (data : List ℕ) (B : RenderBackend)
    (img g s : CGImageModel) :
    (data.length ≠ 64 → ahashExtract data = none) ∧
    (data.length ≠ 72 → dhashExtract data = none) ∧
    (convert_to_gray B img = Outcome.ok g → shrink B g 8 8 = Outcome.ok s →
      s.data.length ≠ 64 → ahash B img = Outcome.fatal) ∧
    (convert_to_gray B img = Outcome.ok g → shrink B g 9 8 = Outcome.ok s →
      s.data.length ≠ 72 → dhash B img = Outcome.fatal) := by
  refine ⟨fun h => ?_, fun h => ?_, fun h1 h2 h3 => ?_, fun h1 h2 h3 => ?_⟩
  · rw [ahashExtract, if_pos (by omega)]
  · rw [dhashExtract, if_pos (by omega)]
  · rw [ahash, h1]
    simp only [Outcome.bind]
    rw [h2]
    simp only [Outcome.bind]
    rw [ahashExtract, if_pos (by omega)]
    rfl
  · rw [dhash, h1]
    simp only [Outcome.bind]
    rw [h2]
    simp only [Outcome.bind]
    rw [dhashExtract, if_pos (by omega)]
    rfl

theorem c3_witness :
    ahashExtract (List.replicate 63 0) = none ∧
    dhashExtract (List.replicate 73 0) = none ∧
    ahash emptyBackend grayImage = Outcome.fatal ∧
    dhash emptyBackend grayImage = Outcome.fatal :=
  ⟨(c3_mis_sized_aborts (List.replicate 63 0) emptyBackend grayImage grayImage
      grayImage).1 (by simp),
    (c3_mis_sized_aborts (List.replicate 73 0) emptyBackend grayImage grayImage
      grayImage).2.1 (by simp),
    (c3_mis_sized_aborts [] emptyBackend grayImage ⟨8, 8, 1, []⟩
      ⟨8, 8, 1, []⟩).2.2.1 rfl rfl (by simp),
    (c3_mis_sized_aborts [] emptyBackend grayImage ⟨8, 8, 1, []⟩
      ⟨8, 8, 1, []⟩).2.2.2 rfl rfl (by simp)⟩

/-- C4 counterexample: `shrink` on a three-component image does not return
an ordinary error result at all — it aborts fatally (`unimplemented!()`);
the error enum of the code has no `UnsupportedColorModel` variant. -/
theorem c4_counterexample :
    shrink emptyBackend rgbImage 8 8 = Outcome.fatal := by
  rfl

/-- C4 (amended): for every input image whose color space has a component
count different from 1, `shrink` aborts fatally via `unimplemented!()` —
an abort, not an ordinary error result — and in particular never attempts
a blended multi-component conversion and never returns an image. -/
theorem c4_shrink_non_gray_fatal (B : RenderBackend) (img : CGImageModel)
    (w h : ℕ) (hc : img.numComponents ≠ 1) :
    shrink B img w h = Outcome.fatal := by
  rw [shrink, if_pos hc]

theorem c4_witness :
    rgbImage.numComponents ≠ 1 ∧ shrink emptyBackend rgbImage 8 8 = Outcome.fatal :=
  ⟨by decide, c4_shrink_non_gray_fatal emptyBackend rgbImage 8 8 (by decide)⟩

/-- C7: a uniform buffer hashes to fingerprint 0 under both extractors:
no sample strictly exceeds the mean, and no sample is strictly greater
than its right neighbour. -/
theorem c7_uniform_zero (v : ℕ) :
    ahashExtract (List.replicate 64 v) = some 0 ∧
    dhashExtract (List.replicate 72 v) = some 0 := by
  constructor
  · obtain ⟨fp, hfp, hlt, hbits⟩ :=
      ahashExtract_char (List.replicate 64 v) (by simp)
    have hsum : (List.replicate 64 v).sum = 64 * v := by
      rw [List.sum_replicate, smul_eq_mul]
    have hfp0 : fp = 0 := by
      apply Nat.eq_of_testBit_eq
      intro i
      rw [Nat.zero_testBit]
      by_cases hi : i < 64
      · cases htb : fp.testBit i
        · rfl
        · exfalso
          have h2 := (hbits i hi).mp htb
          rw [gt_ahashMean_iff (List.replicate 64 v) (by simp), hsum] at h2
          have hg : (List.replicate 64 v).getD i 0 = v := by
            have h3 : i < (List.replicate 64 v).length := by simpa using hi
            rw [List.getD_eq_getElem _ _ h3]
            apply List.getElem_replicate
          rw [hg] at h2
          omega
      · exact testBit_high hlt (by omega)
    rw [hfp0] at hfp
    exact hfp
  · obtain ⟨fp, hfp, hlt, hbits⟩ :=
      dhashExtract_char (List.replicate 72 v) (by simp)
    have hfp0 : fp = 0 := by
      apply Nat.eq_of_testBit_eq
      intro j
      rw [Nat.zero_testBit]
      by_cases hj : j < 64
      · cases htb : fp.testBit j
        · rfl
        · exfalso
          have h2 := (hbits j hj).mp htb
          rw [cmpAt_replicate v j hj] at h2
          exact Bool.false_ne_true h2
      · exact testBit_high hlt (by omega)
    rw [hfp0] at hfp
    exact hfp

/-- C8: on the 8×8 checkerboard alternating 0 and 255, `ahash` yields the
fingerprint `0x55AA55AA55AA55AA`, whose set bits are exactly the indices
of the 255-valued cells (the mean being 127.5, strictly between the two
values). -/
theorem c8_checkerboard :
    ahashExtract checkerBuf = some 6172840429334713770 ∧
    ∀ i, i < 64 →
      (Nat.testBit 6172840429334713770 i = true ↔ checkerBuf.getD i 0 = 255) := by
  have hlen : checkerBuf.length = 64 := by decide
  obtain ⟨fp, hfp, hlt, hbits⟩ := ahashExtract_char checkerBuf hlen
  have hsum : checkerBuf.sum = 8160 := by decide
  have hbit2 : ∀ i, i < 64 →
      (fp.testBit i = true ↔ 64 * checkerBuf.getD i 0 > 8160) := by
    intro i hi
    rw [hbits i hi, gt_ahashMean_iff checkerBuf hlen, hsum]
  have hkey : ∀ i2, i2 < 64 →
      ((64 * checkerBuf.getD i2 0 > 8160) ↔
        Nat.testBit 6172840429334713770 i2 = true) := by decide
  have hfp64 : fp = 6172840429334713770 := by
    apply Nat.eq_of_testBit_eq
    intro i
    by_cases hi : i < 64
    · rw [Bool.eq_iff_iff]
      simp only [hbit2 i hi]
      exact hkey i hi
    · rw [testBit_high hlt (by omega), testBit_high (by norm_num) (by omega)]
  have hval : ∀ i2, i2 < 64 →
      ((64 * checkerBuf.getD i2 0 > 8160) ↔ checkerBuf.getD i2 0 = 255) := by decide
  constructor
  · rw [← hfp64]
    exact hfp
  · intro i hi
    rw [← hfp64, hbit2 i hi]
    exact hval i hi

theorem c8_witness :
    (1 : ℕ) < 64 ∧
    (Nat.testBit 6172840429334713770 1 = true ↔ checkerBuf.getD 1 0 = 255) :=
  ⟨by decide, c8_checkerboard.2 1 (by decide)⟩

/-- C9: the `f32` arithmetic in `ahash` is exact on 64-sample byte
buffers: for any rounding faithful to representable values, the rounded
mean equals the exact rational mean (the sum, at most 16320 < 2^24,
accumulates without rounding and the division by 64 is exact), and hence
fingerprint bit `i` is set exactly when `64 * sample[i] > sum` as exact
integers. -/
theorem c9_f32_exact (rnd : ℚ → ℚ) (hrnd : RoundingFaithful rnd)
    (data : List ℕ) (hlen : data.length = 64) (hb : ∀ v ∈ data, v ≤ 255) :
    meanF32 rnd data = ahashMean data ∧
    ∃ fp, ahashExtract data = some fp ∧
      ∀ i, i < 64 → (fp.testBit i = true ↔ 64 * data.getD i 0 > data.sum) := by
  have hsum : data.sum < 2 ^ 24 := by
    have h1 := sum_le_of_bounded data hb
    rw [hlen] at h1
    have h2 : (2 : ℕ) ^ 24 = 16777216 := by norm_num
    omega
  refine ⟨meanF32_eq rnd hrnd data hlen hsum, ?_⟩
  obtain ⟨fp, hfp, _, hbits⟩ := ahashExtract_char data hlen
  exact ⟨fp, hfp, fun i hi => by rw [hbits i hi, gt_ahashMean_iff data hlen]⟩

theorem c9_witness :
    RoundingFaithful id ∧
    (meanF32 id (List.replicate 64 255) = ahashMean (List.replicate 64 255) ∧
      ∃ fp, ahashExtract (List.replicate 64 255) = some fp ∧
        ∀ i, i < 64 →
          (fp.testBit i = true ↔
            64 * (List.replicate 64 255).getD i 0 > (List.replicate 64 255).sum)) :=
  ⟨fun _ _ => rfl,
    c9_f32_exact id (fun _ _ => rfl) (List.replicate 64 255) (by simp)
      (fun v hv => by
        rw [List.eq_of_mem_replicate hv])⟩

/-- C10: under the length checks (64 for `ahash`, 72 for `dhash`) nothing
later in either extractor panics: every index the `dhash` loop reads is in
bounds, every shift amount stays below 64, and both extractors return a
64-bit fingerprint. -/
theorem c10_no_panic (data64 data72 : List ℕ) (h64 : data64.length = 64)
    (h72 : data72.length = 72) :
    (∃ fp, ahashExtract data64 = some fp ∧ fp < 2 ^ 64) ∧
    ∃ fp, dhashExtract data72 = some fp ∧ fp < 2 ^ 64 := by
  obtain ⟨fp1, hf1, hl1, _⟩ := ahashExtract_char data64 h64
  obtain ⟨fp2, hf2, hl2, _⟩ := dhashExtract_char data72 h72
  exact ⟨⟨fp1, hf1, hl1⟩, ⟨fp2, hf2, hl2⟩⟩

theorem c10_witness :
    (∃ fp, ahashExtract (List.replicate 64 9) = some fp ∧ fp < 2 ^ 64) ∧
    ∃ fp, dhashExtract (List.replicate 72 9) = some fp ∧ fp < 2 ^ 64 :=
  c10_no_panic (List.replicate 64 9) (List.replicate 72 9) (by simp) (by simp)

end ImageTools
